import Mathlib

/-!
Verification of the connection-hub core of the golang-chat repository
(src/main.go): the Hub arbitration loop (register / unregister / broadcast),
the per-connection read and write pumps, and the admission glue in serveWS.

The hub's single `select` loop processes one event at a time, so it is
embedded as a pure step function on an explicit hub state.  A connection's
buffered channel `send` (capacity 256) is embedded as a FIFO list of
messages together with a `closed` flag; presence in the Go map `h.clients`
is the `member` flag.  Connections are keyed by an abstract identifier
standing for the Go pointer identity of the `*Client`.
-/

namespace GolangChat

/-- The wire/fan-out message type: `Message` in main.go.  `time.Time` is
embedded as a natural number of clock ticks. -/
structure Message where
  username : String
  content : String
  timestamp : Nat
deriving DecidableEq, Repr

/-- Identifier standing for the pointer identity of a `*Client`. -/
abbrev ClientId := Nat

/-- The state of one `Client` as the hub sees it: its bound `username`,
the buffered contents of its `send` channel (FIFO, head written first),
whether `close(client.send)` has happened, and whether it is currently a
key of the hub's `clients` map. -/
structure Conn where
  username : String
  queue : List Message
  closed : Bool
  member : Bool
deriving DecidableEq, Repr

/-- Capacity of the `send` channel created in serveWS:
`make(chan Message, 256)`. -/
def sendQueueCapacity : Nat := 256

/-- Hub state: every `*Client` object the hub has ever been handed,
keyed by its identity.  The Go map `h.clients` is the sub-collection with
`member = true`. -/
structure HubState where
  conns : List (ClientId × Conn)
deriving DecidableEq, Repr

/-- The events multiplexed by the `select` in `Hub.run`: a value arriving
on `h.register`, `h.unregister` or `h.broadcast`.  A register event carries
the freshly constructed client (its identity and bound username). -/
inductive HubEvent where
  | register (id : ClientId) (username : String)
  | unregister (id : ClientId)
  | broadcast (m : Message)
deriving DecidableEq, Repr

/-- Effect of `h.clients[client] = true` on one tracked entry: map insert
sets membership of the matching key and touches nothing else. -/
def registerEntry (id : ClientId) (p : ClientId × Conn) : ClientId × Conn :=
  if p.1 = id then (p.1, { p.2 with member := true }) else p

/-- Effect of the `h.unregister` case on one tracked entry: if it is the
requested client and it is in the map, delete it from the map and close
its send channel; otherwise leave it alone. -/
def unregisterEntry (id : ClientId) (p : ClientId × Conn) : ClientId × Conn :=
  if p.1 = id ∧ p.2.member = true then
    (p.1, { p.2 with member := false, closed := true })
  else p

/-- The `h.register` case of `Hub.run`: `h.clients[client] = true`.
A client seen for the first time enters with the fresh open empty queue
made in serveWS; re-inserting an already tracked client only (re)sets its
map membership and touches neither its queue nor its closed flag. -/
def hubRegister (s : HubState) (id : ClientId) (u : String) : HubState :=
  if s.conns.any (fun p => p.1 == id) then
    { conns := s.conns.map (registerEntry id) }
  else
    { conns := s.conns ++ [(id, ⟨u, [], false, true⟩)] }

/-- The `h.unregister` case of `Hub.run`: if the client is in the map,
delete it and close its send channel; otherwise do nothing. -/
def hubUnregister (s : HubState) (id : ClientId) : HubState :=
  { conns := s.conns.map (unregisterEntry id) }

/-- The per-client body of the broadcast fan-out:
`select { case client.send <- message: ... default: close; delete }`.
The non-blocking enqueue succeeds exactly when the buffered channel has
free capacity; otherwise the client is evicted (channel closed, deleted
from the map).  Clients not in the map are not visited by the range loop
and are unchanged. -/
def broadcastConn (m : Message) (c : Conn) : Conn :=
  if c.member = true then
    if c.queue.length < sendQueueCapacity then
      { c with queue := c.queue ++ [m] }
    else
      { c with member := false, closed := true }
  else c

/-- The `h.broadcast` case of `Hub.run`: fan the message out over the
current membership, one non-blocking enqueue attempt per member. -/
def hubBroadcast (s : HubState) (m : Message) : HubState :=
  { conns := s.conns.map (fun p => (p.1, broadcastConn m p.2)) }

/-- One iteration of the `select` loop in `Hub.run`. -/
def hubStep (s : HubState) : HubEvent → HubState
  | .register id u => hubRegister s id u
  | .unregister id => hubUnregister s id
  | .broadcast m => hubBroadcast s m

/-- The arbitration loop run over a finite sequence of events. -/
def hubRun (s : HubState) (es : List HubEvent) : HubState :=
  es.foldl hubStep s

/-- The stamping done by readPump on every successfully decoded message:
`msg.Username = c.username; msg.Timestamp = time.Now()`.  Only the content
survives from the wire. -/
def stampMessage (u : String) (now : Nat) (wire : Message) : Message :=
  { wire with username := u, timestamp := now }

/-- One run of the readPump loop over a finite prefix of read outcomes.
Each element is `some (now, wire)` for a successful `ReadJSON` (paired
with the `time.Now()` of that iteration) or `none` for a read error.
Returns the messages submitted to `h.broadcast`, in order, and whether
the deferred cleanup (which sends on `h.unregister`) has run. -/
def readPumpRun (u : String) : List (Option (Nat × Message)) → List Message × Bool
  | [] => ([], false)
  | none :: _ => ([], true)
  | some (now, wire) :: rest =>
    let r := readPumpRun u rest
    (stampMessage u now wire :: r.1, r.2)

/-- Outcome of one run of writePump over the (closed) queue contents. -/
structure WriteResult where
  written : List Message
  sentCloseFrame : Bool
  calledUnregister : Bool
deriving DecidableEq, Repr

/-- One run of the writePump loop draining a closed send channel whose
buffered contents are `q`: each buffered message is received and written
with `WriteJSON`; a write error makes the pump return at once; after the
buffer is drained, `ok` is false and the pump writes the close frame and
returns.  writePump never sends on `h.unregister`. -/
def writePumpRun (writeOk : Message → Bool) : List Message → WriteResult
  | [] => ⟨[], true, false⟩
  | m :: rest =>
    if writeOk m then
      let r := writePumpRun writeOk rest
      ⟨m :: r.written, r.sentCloseFrame, r.calledUnregister⟩
    else ⟨[], false, false⟩

/-- Identity resolution in serveWS: the `username` query parameter, with
the `fmt.Sprintf("User%d", time.Now().Unix()%1000)` fallback when it is
empty. -/
def resolveUsername (queryUsername : String) (nowUnix : Nat) : String :=
  if queryUsername = "" then "User" ++ toString (nowUnix % 1000) else queryUsername

/-- serveWS after a successful upgrade: construct the client with its
resolved identity and a fresh open queue, and hand it to `h.register`
(here: the register event as processed by the hub). -/
def serveWS (s : HubState) (id : ClientId) (queryUsername : String) (nowUnix : Nat) :
    HubState :=
  hubRegister s id (resolveUsername queryUsername nowUnix)

/-- The membership-set invariant maintained by `Hub.run` (spec §3): a
tracked connection is in the `clients` map exactly when its send channel
is still open. -/
def hubInv (s : HubState) : Prop :=
  ∀ p ∈ s.conns, (p.2.member = true ↔ p.2.closed = false)

/-- A sample message, used to instantiate theorems at concrete inputs. -/
def sampleMsg : Message := ⟨"alice", "hi", 1⟩

/-- A second sample message. -/
def sampleMsg2 : Message := ⟨"bob", "yo", 2⟩

/-- A send-queue backlog at full capacity. -/
def fullQ : List Message := List.replicate sendQueueCapacity sampleMsg

/-! ### Helper lemmas -/

theorem registerEntry_fst (id : ClientId) (p : ClientId × Conn) :
    (registerEntry id p).1 = p.1 := by
  unfold registerEntry
  split <;> rfl

theorem registerEntry_idem (id : ClientId) (p : ClientId × Conn) :
    registerEntry id (registerEntry id p) = registerEntry id p := by
  unfold registerEntry
  by_cases h : p.1 = id <;> simp [h]

theorem unregisterEntry_idem (id : ClientId) (p : ClientId × Conn) :
    unregisterEntry id (unregisterEntry id p) = unregisterEntry id p := by
  unfold unregisterEntry
  by_cases h : p.1 = id ∧ p.2.member = true <;> simp [h]

theorem registerEntry_of_ne (id : ClientId) (p : ClientId × Conn) (h : p.1 ≠ id) :
    registerEntry id p = p := by
  simp [registerEntry, h]

/-- When every write succeeds, writePump drains the whole closed queue in
order, sends the close frame and never touches `h.unregister`. -/
theorem writePumpRun_all_ok (writeOk : Message → Bool) (q : List Message)
    (h : ∀ x ∈ q, writeOk x = true) :
    writePumpRun writeOk q = ⟨q, true, false⟩ := by
  induction q with
  | nil => rfl
  | cons m rest ih =>
    have hm : writeOk m = true := h m (List.mem_cons_self m rest)
    have hrest : ∀ x ∈ rest, writeOk x = true := fun x hx => h x (List.mem_cons_of_mem m hx)
    simp [writePumpRun, hm, ih hrest]

theorem writePumpRun_never_unregisters (writeOk : Message → Bool) (q : List Message) :
    (writePumpRun writeOk q).calledUnregister = false := by
  induction q with
  | nil => rfl
  | cons m rest ih =>
    by_cases hm : writeOk m = true <;> simp [writePumpRun, hm, ih]

theorem readPumpRun_unregister_iff (u : String) (reads : List (Option (Nat × Message))) :
    (readPumpRun u reads).2 = true ↔ none ∈ reads := by
  induction reads with
  | nil => simp [readPumpRun]
  | cons o rest ih =>
    cases o with
    | none => simp [readPumpRun]
    | some p => simp [readPumpRun, ih]

theorem mem_hubBroadcast_of_mem (s : HubState) (m : Message) (i : ClientId) (c : Conn)
    (hc : (i, c) ∈ s.conns) : (i, broadcastConn m c) ∈ (hubBroadcast s m).conns := by
  unfold hubBroadcast
  exact List.mem_map_of_mem (fun p => (p.1, broadcastConn m p.2)) hc

theorem broadcastConn_member_room (m : Message) (c : Conn) (hm : c.member = true)
    (hroom : c.queue.length < sendQueueCapacity) :
    broadcastConn m c = { c with queue := c.queue ++ [m] } := by
  simp [broadcastConn, hm, hroom]

theorem broadcastConn_member_full (m : Message) (c : Conn) (hm : c.member = true)
    (hfull : sendQueueCapacity ≤ c.queue.length) :
    broadcastConn m c = { c with member := false, closed := true } := by
  simp [broadcastConn, hm, Nat.not_lt.mpr hfull]

theorem broadcastConn_not_member (m : Message) (c : Conn) (hm : c.member = false) :
    broadcastConn m c = c := by
  simp [broadcastConn, hm]

theorem writePumpRun_fail (writeOk : Message → Bool) (q1 q2 : List Message) (mf : Message)
    (h1 : ∀ x ∈ q1, writeOk x = true) (hf : writeOk mf = false) :
    writePumpRun writeOk (q1 ++ mf :: q2) = ⟨q1, false, false⟩ := by
  induction q1 with
  | nil => simp [writePumpRun, hf]
  | cons a rest ih =>
    have ha := h1 a (List.mem_cons_self a rest)
    simp [writePumpRun, ha, ih (fun x hx => h1 x (List.mem_cons_of_mem a hx))]

/-! ### Claims -/

/-- C3: remove (unregister) is idempotent: removing twice equals removing
once, and removing a connection that is not currently a member (for
instance because a broadcast-time eviction already removed it and closed
its queue) leaves the hub state entirely unchanged — so the queue is not
closed a second time. -/
theorem remove_idempotent (s : HubState) (i : ClientId) :
    hubUnregister (hubUnregister s i) i = hubUnregister s i
    ∧ ((∀ c : Conn, (i, c) ∈ s.conns → c.member = false) → hubUnregister s i = s) := by
  constructor
  · unfold hubUnregister
    simp only [List.map_map]
    exact congrArg HubState.mk (List.map_congr_left fun p _ => unregisterEntry_idem i p)
  · intro h
    obtain ⟨l⟩ := s
    unfold hubUnregister
    have hfix : ∀ p ∈ l, unregisterEntry i p = p := by
      intro p hp
      unfold unregisterEntry
      split
      · rename_i hcond
        obtain ⟨h1, h2⟩ := hcond
        have : p.2.member = false := by
          apply h
          rw [← h1]
          exact hp
        simp [this] at h2
      · rfl
    refine congrArg HubState.mk ?_
    calc l.map (unregisterEntry i) = l.map id := List.map_congr_left
          (fun p hp => hfix p hp)
      _ = l := List.map_id l

theorem remove_idempotent_witness :
    hubUnregister (hubUnregister ⟨[(0, ⟨"a", [], true, false⟩)]⟩ 0) 0
        = hubUnregister ⟨[(0, ⟨"a", [], true, false⟩)]⟩ 0
    ∧ hubUnregister ⟨[(0, ⟨"a", [], true, false⟩)]⟩ 0
        = ⟨[(0, ⟨"a", [], true, false⟩)]⟩ := by
  refine ⟨(remove_idempotent ⟨[(0, ⟨"a", [], true, false⟩)]⟩ 0).1, ?_⟩
  apply (remove_idempotent ⟨[(0, ⟨"a", [], true, false⟩)]⟩ 0).2
  intro c hc
  simp at hc
  rw [hc]

/-- C10: admit (register) is idempotent on the membership set: registering
twice equals registering once, and registering a connection that is
already tracked only re-asserts its map membership — its outbound queue
and closed flag are untouched (not replaced, closed, or reset). -/
theorem register_idempotent (s : HubState) (i : ClientId) (u : String) :
    hubRegister (hubRegister s i u) i u = hubRegister s i u
    ∧ ∀ c : Conn, (i, c) ∈ s.conns →
        (i, { c with member := true }) ∈ (hubRegister s i u).conns := by
  constructor
  · unfold hubRegister
    by_cases h : s.conns.any (fun p => p.1 == i) = true
    · have hmap : (s.conns.map (registerEntry i)).any (fun p => p.1 == i) = true := by
        rw [List.any_map]
        have : ((fun p : ClientId × Conn => p.1 == i) ∘ registerEntry i)
            = fun p : ClientId × Conn => p.1 == i := by
          funext p
          simp [Function.comp, registerEntry_fst]
        rw [this]
        exact h
      simp only [h, if_true, hmap, List.map_map]
      exact congrArg HubState.mk (List.map_congr_left fun p _ => registerEntry_idem i p)
    · have hall : ∀ p ∈ s.conns, (p.1 == i) = false := by
        intro p hp
        by_contra hne
        exact h (List.any_eq_true.mpr ⟨p, hp, by simpa using hne⟩)
      have happ : ((s.conns ++ [(i, (⟨u, [], false, true⟩ : Conn))]).any
          (fun p => p.1 == i)) = true := by
        apply List.any_eq_true.mpr
        exact ⟨(i, ⟨u, [], false, true⟩), by simp, by simp⟩
      simp only [h, if_false, Bool.false_eq_true, happ, if_true, List.map_append]
      refine congrArg HubState.mk ?_
      have h1 : (s.conns.map (registerEntry i)) = s.conns := by
        calc s.conns.map (registerEntry i) = s.conns.map id :=
              List.map_congr_left (fun p hp => registerEntry_of_ne i p (by
                have := hall p hp
                simpa using this))
          _ = s.conns := List.map_id s.conns
      have h2 : registerEntry i (i, (⟨u, [], false, true⟩ : Conn))
          = (i, ⟨u, [], false, true⟩) := by
        simp [registerEntry]
      rw [h1]
      simp [h2]
  · intro c hc
    have h : s.conns.any (fun p => p.1 == i) = true :=
      List.any_eq_true.mpr ⟨(i, c), hc, by simp⟩
    unfold hubRegister
    simp only [h, if_true]
    have hre : registerEntry i (i, c) = (i, { c with member := true }) := by
      simp [registerEntry]
    rw [← hre]
    exact List.mem_map_of_mem (registerEntry i) hc

theorem register_idempotent_witness :
    hubRegister (hubRegister ⟨[(0, ⟨"a", [⟨"a", "x", 0⟩], false, true⟩)]⟩ 0 "a") 0 "a"
        = hubRegister ⟨[(0, ⟨"a", [⟨"a", "x", 0⟩], false, true⟩)]⟩ 0 "a"
    ∧ (0, ⟨"a", [⟨"a", "x", 0⟩], false, true⟩) ∈
        (hubRegister ⟨[(0, ⟨"a", [⟨"a", "x", 0⟩], false, true⟩)]⟩ 0 "a").conns := by
  refine ⟨(register_idempotent ⟨[(0, ⟨"a", [⟨"a", "x", 0⟩], false, true⟩)]⟩ 0 "a").1, ?_⟩
  exact (register_idempotent ⟨[(0, ⟨"a", [⟨"a", "x", 0⟩], false, true⟩)]⟩ 0 "a").2
    ⟨"a", [⟨"a", "x", 0⟩], false, true⟩ (by simp)

/-- C1: the broadcast fan-out attempts a non-blocking enqueue per member
(the total function `broadcastConn`, which decides on queue occupancy
alone and never waits): a member whose bounded outbound queue is full at
that moment is evicted — queue closed, deleted from the membership set —
while every member with free capacity still has the message delivered. -/
theorem broadcast_nonblocking_eviction (s : HubState) (m : Message) (i : ClientId)
    (c : Conn) (hc : (i, c) ∈ s.conns) (hm : c.member = true) :
    (sendQueueCapacity ≤ c.queue.length →
        (i, { c with member := false, closed := true }) ∈ (hubBroadcast s m).conns)
    ∧ (c.queue.length < sendQueueCapacity →
        (i, { c with queue := c.queue ++ [m] }) ∈ (hubBroadcast s m).conns) := by
  constructor
  · intro hfull
    have h := mem_hubBroadcast_of_mem s m i c hc
    rwa [broadcastConn_member_full m c hm hfull] at h
  · intro hroom
    have h := mem_hubBroadcast_of_mem s m i c hc
    rwa [broadcastConn_member_room m c hm hroom] at h

theorem broadcast_nonblocking_eviction_witness :
    (0, (⟨"a", fullQ, true, false⟩ : Conn)) ∈
      (hubBroadcast ⟨[(0, ⟨"a", fullQ, false, true⟩), (1, ⟨"b", [], false, true⟩)]⟩
        sampleMsg2).conns
    ∧ (1, (⟨"b", [sampleMsg2], false, true⟩ : Conn)) ∈
      (hubBroadcast ⟨[(0, ⟨"a", fullQ, false, true⟩), (1, ⟨"b", [], false, true⟩)]⟩
        sampleMsg2).conns := by
  constructor
  · exact (broadcast_nonblocking_eviction
      ⟨[(0, ⟨"a", fullQ, false, true⟩), (1, ⟨"b", [], false, true⟩)]⟩
      sampleMsg2 0 ⟨"a", fullQ, false, true⟩ (List.mem_cons_self _ _) rfl).1
      (by simp [fullQ])
  · exact (broadcast_nonblocking_eviction
      ⟨[(0, ⟨"a", fullQ, false, true⟩), (1, ⟨"b", [], false, true⟩)]⟩
      sampleMsg2 1 ⟨"b", [], false, true⟩
      (List.mem_cons_of_mem _ (List.mem_cons_self _ _)) rfl).2
      (by simp [sendQueueCapacity])

/-- C2: every connection that is a member at broadcast time and is not
evicted during the fan-out (its queue has free capacity) receives exactly
one copy of the message: its queue is extended by exactly the one new
message, so the count of that message grows by exactly one. -/
theorem broadcast_exactly_once (s : HubState) (m : Message) (i : ClientId) (c : Conn)
    (hc : (i, c) ∈ s.conns) (hm : c.member = true)
    (hroom : c.queue.length < sendQueueCapacity) :
    (i, { c with queue := c.queue ++ [m] }) ∈ (hubBroadcast s m).conns
    ∧ (c.queue ++ [m]).count m = c.queue.count m + 1 := by
  constructor
  · have h := mem_hubBroadcast_of_mem s m i c hc
    rwa [broadcastConn_member_room m c hm hroom] at h
  · simp

theorem broadcast_exactly_once_witness :
    (0, (⟨"a", [sampleMsg], false, true⟩ : Conn)) ∈
      (hubBroadcast ⟨[(0, ⟨"a", [], false, true⟩)]⟩ sampleMsg).conns
    ∧ ([] ++ [sampleMsg]).count sampleMsg = List.count sampleMsg [] + 1 := by
  exact broadcast_exactly_once ⟨[(0, ⟨"a", [], false, true⟩)]⟩ sampleMsg 0
    ⟨"a", [], false, true⟩ (List.mem_cons_self _ _) rfl (by simp [sendQueueCapacity])

/-- C5: order preservation: if m1 is processed by the arbitration loop
strictly before m2, a connection that stays a member through both
fan-outs has m1 enqueued before m2, and its write pump (on a successful
drain) writes the queue in exactly that FIFO order. -/
theorem order_preserved (s : HubState) (m1 m2 : Message) (i : ClientId) (c : Conn)
    (hc : (i, c) ∈ s.conns) (hm : c.member = true)
    (hroom : c.queue.length + 1 < sendQueueCapacity) :
    (i, { c with queue := c.queue ++ [m1, m2] }) ∈
        (hubBroadcast (hubBroadcast s m1) m2).conns
    ∧ (writePumpRun (fun _ => true) (c.queue ++ [m1, m2])).written
        = c.queue ++ [m1, m2] := by
  constructor
  · have hroom1 : c.queue.length < sendQueueCapacity := Nat.lt_of_succ_lt hroom
    have h1 := mem_hubBroadcast_of_mem s m1 i c hc
    rw [broadcastConn_member_room m1 c hm hroom1] at h1
    have h2 := mem_hubBroadcast_of_mem (hubBroadcast s m1) m2 i
      { c with queue := c.queue ++ [m1] } h1
    have hm1 : ({ c with queue := c.queue ++ [m1] } : Conn).member = true := hm
    have hlen1 : ({ c with queue := c.queue ++ [m1] } : Conn).queue.length
        < sendQueueCapacity := by
      simpa using hroom
    rw [broadcastConn_member_room m2 _ hm1 hlen1] at h2
    have hq : (c.queue ++ [m1]) ++ [m2] = c.queue ++ [m1, m2] := by
      rw [List.append_assoc]
      rfl
    simpa [hq] using h2
  · rw [writePumpRun_all_ok (fun _ => true) (c.queue ++ [m1, m2]) (fun x _ => rfl)]

theorem order_preserved_witness :
    (0, (⟨"a", [sampleMsg, sampleMsg2], false, true⟩ : Conn)) ∈
      (hubBroadcast (hubBroadcast ⟨[(0, ⟨"a", [], false, true⟩)]⟩ sampleMsg)
        sampleMsg2).conns
    ∧ (writePumpRun (fun _ => true) ([] ++ [sampleMsg, sampleMsg2])).written
        = [] ++ [sampleMsg, sampleMsg2] := by
  exact order_preserved ⟨[(0, ⟨"a", [], false, true⟩)]⟩ sampleMsg sampleMsg2 0
    ⟨"a", [], false, true⟩ (List.mem_cons_self _ _) rfl (by simp [sendQueueCapacity])

/-- C7: after the hub processes remove for a current member, that
connection's queue is closed and it is out of the membership set; a
subsequent broadcast leaves it entirely unchanged (it receives nothing);
and the closed queue makes its write pump drain the backlog, send the
close frame and terminate. -/
theorem remove_closes_and_stops_delivery (s : HubState) (i : ClientId) (c : Conn)
    (m : Message) (writeOk : Message → Bool)
    (hc : (i, c) ∈ s.conns) (hm : c.member = true)
    (hok : ∀ x ∈ c.queue, writeOk x = true) :
    (i, { c with member := false, closed := true }) ∈ (hubUnregister s i).conns
    ∧ (i, { c with member := false, closed := true }) ∈
        (hubBroadcast (hubUnregister s i) m).conns
    ∧ (writePumpRun writeOk c.queue).written = c.queue
    ∧ (writePumpRun writeOk c.queue).sentCloseFrame = true := by
  have h1 : (i, { c with member := false, closed := true }) ∈ (hubUnregister s i).conns := by
    unfold hubUnregister
    have he : unregisterEntry i (i, c) = (i, { c with member := false, closed := true }) := by
      simp [unregisterEntry, hm]
    rw [← he]
    exact List.mem_map_of_mem (unregisterEntry i) hc
  have h2 := mem_hubBroadcast_of_mem (hubUnregister s i) m i
    { c with member := false, closed := true } h1
  rw [broadcastConn_not_member m _ rfl] at h2
  refine ⟨h1, h2, ?_, ?_⟩
  · rw [writePumpRun_all_ok writeOk c.queue hok]
  · rw [writePumpRun_all_ok writeOk c.queue hok]

theorem remove_closes_and_stops_delivery_witness :
    (0, (⟨"a", [sampleMsg], true, false⟩ : Conn)) ∈
      (hubUnregister ⟨[(0, ⟨"a", [sampleMsg], false, true⟩)]⟩ 0).conns
    ∧ (0, (⟨"a", [sampleMsg], true, false⟩ : Conn)) ∈
      (hubBroadcast (hubUnregister ⟨[(0, ⟨"a", [sampleMsg], false, true⟩)]⟩ 0)
        sampleMsg2).conns
    ∧ (writePumpRun (fun _ => true) [sampleMsg]).written = [sampleMsg]
    ∧ (writePumpRun (fun _ => true) [sampleMsg]).sentCloseFrame = true := by
  exact remove_closes_and_stops_delivery ⟨[(0, ⟨"a", [sampleMsg], false, true⟩)]⟩ 0
    ⟨"a", [sampleMsg], false, true⟩ sampleMsg2 (fun _ => true)
    (List.mem_cons_self _ _) rfl (fun x _ => rfl)

/-- C4: on every successfully decoded inbound submission, the message
handed to broadcast carries the identity bound to the connection and the
server-side timestamp, whatever username or timestamp the client put on
the wire; only the content is taken from the wire.  Moreover every
message a readPump run submits carries the bound identity. -/
theorem inbound_identity_stamping (u spoofU content : String) (now spoofT : Nat)
    (reads : List (Option (Nat × Message))) :
    stampMessage u now ⟨spoofU, content, spoofT⟩ = ⟨u, content, now⟩
    ∧ ∀ m ∈ (readPumpRun u reads).1, m.username = u := by
  refine ⟨rfl, ?_⟩
  induction reads with
  | nil =>
    intro m hm
    simp [readPumpRun] at hm
  | cons o rest ih =>
    intro m hm
    cases o with
    | none => simp [readPumpRun] at hm
    | some p =>
      obtain ⟨n, w⟩ := p
      simp only [readPumpRun, List.mem_cons] at hm
      rcases hm with h | h
      · rw [h]
        rfl
      · exact ih m h

theorem inbound_identity_stamping_witness :
    stampMessage "alice" 5 ⟨"eve", "hi", 99⟩ = ⟨"alice", "hi", 5⟩
    ∧ (Message.mk "alice" "hi" 5).username = "alice" := by
  have h := inbound_identity_stamping "alice" "eve" "hi" 5 99 [some (5, ⟨"eve", "hi", 99⟩)]
  refine ⟨h.1, h.2 ⟨"alice", "hi", 5⟩ ?_⟩
  simp [readPumpRun, stampMessage]

/-- C6: the membership invariant (a tracked connection is in the map iff
its queue is open, which is exactly its eligibility for fan-out) is
preserved by every single atomically-processed step of the arbitration
loop, provided a register event only ever carries a freshly constructed,
never-before-seen client (spec §4.3: admit at most once per connection). -/
theorem hub_step_preserves_invariant (s : HubState) (e : HubEvent)
    (hinv : hubInv s)
    (hfresh : ∀ i u, e = HubEvent.register i u →
        s.conns.any (fun p => p.1 == i) = false) :
    hubInv (hubStep s e) := by
  cases e with
  | register i u =>
    have hf := hfresh i u rfl
    intro p hp
    simp only [hubStep] at hp
    unfold hubRegister at hp
    rw [hf] at hp
    simp only [Bool.false_eq_true, if_false] at hp
    rcases List.mem_append.mp hp with h | h
    · exact hinv p h
    · simp only [List.mem_singleton] at h
      rw [h]
      simp
  | unregister i =>
    intro p hp
    simp only [hubStep] at hp
    unfold hubUnregister at hp
    obtain ⟨q, hq, hpq⟩ := List.mem_map.mp hp
    rw [← hpq]
    unfold unregisterEntry
    split
    · simp
    · exact hinv q hq
  | broadcast m =>
    intro p hp
    simp only [hubStep] at hp
    unfold hubBroadcast at hp
    obtain ⟨q, hq, hpq⟩ := List.mem_map.mp hp
    rw [← hpq]
    by_cases hm : q.2.member = true
    · by_cases hr : q.2.queue.length < sendQueueCapacity
      · rw [broadcastConn_member_room m q.2 hm hr]
        simpa using hinv q hq
      · rw [broadcastConn_member_full m q.2 hm (Nat.le_of_not_lt hr)]
        simp
    · rw [broadcastConn_not_member m q.2 (by simpa using hm)]
      exact hinv q hq

theorem hub_step_preserves_invariant_witness :
    hubInv (hubStep ⟨[(1, ⟨"b", [sampleMsg], false, true⟩)]⟩ (HubEvent.register 0 "a")) := by
  apply hub_step_preserves_invariant
  · intro p hp
    simp only [List.mem_singleton] at hp
    rw [hp]
    simp
  · intro i u h
    cases h
    rfl

/-- C8: a failed network write makes the write pump return at once: the
messages after the failing one are not written, no close frame is sent,
and — for any queue whatsoever — the write pump never issues an
unregister; the unregister request is issued exactly by a readPump run
that hits a read failure. -/
theorem write_failure_exits_without_remove (writeOk : Message → Bool)
    (q1 q2 : List Message) (mf : Message) (u : String)
    (reads : List (Option (Nat × Message)))
    (h1 : ∀ x ∈ q1, writeOk x = true) (hf : writeOk mf = false) :
    (writePumpRun writeOk (q1 ++ mf :: q2)).written = q1
    ∧ (writePumpRun writeOk (q1 ++ mf :: q2)).sentCloseFrame = false
    ∧ (∀ q : List Message, (writePumpRun writeOk q).calledUnregister = false)
    ∧ ((readPumpRun u reads).2 = true ↔ none ∈ reads) := by
  refine ⟨?_, ?_, fun q => writePumpRun_never_unregisters writeOk q,
    readPumpRun_unregister_iff u reads⟩
  · rw [writePumpRun_fail writeOk q1 q2 mf h1 hf]
  · rw [writePumpRun_fail writeOk q1 q2 mf h1 hf]

theorem write_failure_exits_without_remove_witness :
    (writePumpRun (fun x => decide (x.content = "good"))
        ([⟨"a", "good", 0⟩] ++ (⟨"a", "bad", 0⟩ : Message) :: [⟨"a", "late", 0⟩])).written
      = [(⟨"a", "good", 0⟩ : Message)]
    ∧ (writePumpRun (fun x => decide (x.content = "good"))
        ([⟨"a", "good", 0⟩] ++ (⟨"a", "bad", 0⟩ : Message) :: [⟨"a", "late", 0⟩])).sentCloseFrame
      = false
    ∧ (writePumpRun (fun x => decide (x.content = "good")) []).calledUnregister = false
    ∧ (readPumpRun "alice" [none]).2 = true := by
  have h := write_failure_exits_without_remove (fun x => decide (x.content = "good"))
    [⟨"a", "good", 0⟩] [⟨"a", "late", 0⟩] ⟨"a", "bad", 0⟩ "alice" [none]
    (by
      intro x hx
      simp only [List.mem_singleton] at hx
      rw [hx]
      decide)
    (by decide)
  exact ⟨h.1, h.2.1, h.2.2.1 [], h.2.2.2.mpr (List.mem_singleton.mpr rfl)⟩

/-- C9: an admission request with an empty username query parameter binds
the Gateway fallback identity User(unix mod 1000) to the connection;
admission then proceeds exactly as with a supplied identity, and that
fallback identity is the one stamped onto every message the connection
submits. -/
theorem fallback_identity (t now : Nat) (wire : Message) (s : HubState) (i : ClientId) :
    resolveUsername "" t = "User" ++ toString (t % 1000)
    ∧ serveWS s i "" t = hubRegister s i ("User" ++ toString (t % 1000))
    ∧ stampMessage (resolveUsername "" t) now wire
        = ⟨"User" ++ toString (t % 1000), wire.content, now⟩ := by
  refine ⟨rfl, rfl, rfl⟩

end GolangChat
